import Mathlib

/- Verification development for the react-mindmap editor.

   The embedded program text is the MindMapEditor component: its tree
   helpers (findNode, isDescendant), its immutable tree updates
   (renameNode via handleUpdateNode, removeNode and addNode inside
   handleReparentNode), its horizontal layout (calculatePositions), its
   viewport controller (pan in handleGlobalMouseMove, zoom in
   handleWheel), and the interaction state machine of the final robust
   variant (interactionRef together with the mouse and text handlers).

   Numbers that are JavaScript floats in the source are modelled as
   rationals, so all coordinate arithmetic is exact. -/

namespace MindMap

/-- A mind-map tree node as in the source: an id, a text label, and an
optional list of children. The children property may be absent on a node;
every traversal in the source reads it through the children-or-empty-list
idiom. -/
inductive Node : Type where
  | mk (id : String) (text : String) (children : Option (List Node))

/-- The id property of a node. -/
def Node.id : Node → String
  | .mk i _ _ => i

/-- The text property of a node. -/
def Node.text : Node → String
  | .mk _ t _ => t

/-- The raw children property of a node, absent or present. -/
def Node.children : Node → Option (List Node)
  | .mk _ _ c => c

/-- The children of a node read the way the source reads them: an absent
children property defaults to the empty list. -/
def Node.childrenD (n : Node) : List Node :=
  n.children.getD []

-- Layout constants from the source.

/-- Node width constant from the source. -/
def NODE_WIDTH : ℚ := 180

/-- Node height constant from the source. -/
def NODE_HEIGHT : ℚ := 60

/-- Horizontal spacing between levels, from the source. -/
def H_SPACING : ℚ := 80

/-- Vertical spacing between siblings, from the source. -/
def V_SPACING : ℚ := 30

/-- The multiplicative zoom factor used by handleWheel. -/
def zoomFactor : ℚ := 11 / 10

-- Tree store operations.

mutual

/-- Depth-first search for the node with the given id, as the source
function findNode: return the node itself on an id match, otherwise the
first match found in the children, otherwise none. -/
def findNode : Node → String → Option Node
  | .mk i t c, q =>
    if i = q then some (.mk i t c)
    else
      match c with
      | none => none
      | some l => findNodeL l q

/-- The child loop of findNode: first match wins. -/
def findNodeL : List Node → String → Option Node
  | [], _ => none
  | c :: cs, q =>
    match findNode c q with
    | some r => some r
    | none => findNodeL cs q

end

mutual

/-- The source function isDescendant: true when the given id is the id of
this node or of any node in its subtree. -/
def isDescendant : Node → String → Bool
  | .mk i _ c, q =>
    if i = q then true
    else
      match c with
      | none => false
      | some l => isDescL l q

/-- The child loop of isDescendant. -/
def isDescL : List Node → String → Bool
  | [], _ => false
  | c :: cs, q => isDescendant c q || isDescL cs q

end

mutual

/-- The recursive update of handleUpdateNode: replace the text of the node
whose id matches (leaving its children property untouched and stopping the
recursion there), and rebuild every other node with its children mapped
recursively. -/
def renameNode : Node → String → String → Node
  | .mk i t c, q, s =>
    if i = q then .mk i s c
    else
      .mk i t (some (
        match c with
        | none => []
        | some l => renameL l q s))

/-- The child map of renameNode. -/
def renameL : List Node → String → String → List Node
  | [], _, _ => []
  | c :: cs, q, s => renameNode c q s :: renameL cs q s

end

mutual

/-- Step 1 of handleReparentNode: remove every child whose id matches from
every children list in the tree, rebuilding each node immutably. The root
node itself is never removed. -/
def removeNode : Node → String → Node
  | .mk i t c, q =>
    .mk i t (some (
      match c with
      | none => []
      | some l => removeL l q))

/-- The child filter-and-map loop of removeNode, fused: children whose id
matches are dropped, the rest are processed recursively. -/
def removeL : List Node → String → List Node
  | [], _ => []
  | c :: cs, q =>
    if c.id = q then removeL cs q
    else removeNode c q :: removeL cs q

end

mutual

/-- Step 2 of handleReparentNode: append the given node at the end of the
children of the node whose id matches the parent id (stopping the recursion
there), mapping over children elsewhere. -/
def addNode : Node → String → Node → Node
  | .mk i t c, p, x =>
    if i = p then .mk i t (some ((c.getD []) ++ [x]))
    else
      .mk i t (some (
        match c with
        | none => []
        | some l => addL l p x))

/-- The child map of addNode. -/
def addL : List Node → String → Node → List Node
  | [], _, _ => []
  | c :: cs, p, x => addNode c p x :: addL cs p x

end

/-- The source function handleReparentNode: refuse when the dragged id
equals the target id or is the literal string root, refuse when the dragged
node is not found or when the target id lies in the dragged subtree, and
otherwise remove the dragged subtree and append it to the target node. -/
def reparentNode (T : Node) (draggedId targetId : String) : Node :=
  if draggedId = targetId ∨ draggedId = "root" then T
  else
    match findNode T draggedId with
    | none => T
    | some draggedNode =>
      if isDescendant draggedNode targetId then T
      else addNode (removeNode T draggedId) targetId draggedNode

-- Specification-side helpers about trees (not part of the source; used to
-- state properties of the operations above).

mutual

/-- All ids of a tree in depth-first preorder. -/
def ids : Node → List String
  | .mk i _ c =>
    i :: (
      match c with
      | none => []
      | some l => idsL l)

/-- Preorder ids of a list of trees. -/
def idsL : List Node → List String
  | [] => []
  | c :: cs => ids c ++ idsL cs

end

mutual

/-- Replace every absent children property by an explicit empty list. -/
def normalize : Node → Node
  | .mk i t c =>
    .mk i t (some (
      match c with
      | none => []
      | some l => normalizeL l))

/-- Pointwise normalization of a list of trees. -/
def normalizeL : List Node → List Node
  | [] => []
  | c :: cs => normalize c :: normalizeL cs

end

mutual

/-- True when every node of the tree carries an explicit children list. -/
def isNormalB : Node → Bool
  | .mk _ _ c =>
    match c with
    | none => false
    | some l => isNormalL l

/-- isNormalB on a list of trees. -/
def isNormalL : List Node → Bool
  | [] => true
  | c :: cs => isNormalB c && isNormalL cs

end

/-- The id, text and direct child ids of the node found at an id: the
directly observable header of a node, used to compare trees nodewise. -/
def summaryOf (T : Node) (q : String) : Option (String × String × List String) :=
  (findNode T q).map fun n => (n.id, n.text, n.childrenD.map Node.id)

-- Layout engine.

/-- The sibling-group height formula of calculatePositions, taken verbatim
from the source: count times node height plus vertical spacing, minus one
vertical spacing. -/
def totalChildHeight (count : ℕ) : ℚ :=
  (count : ℚ) * (NODE_HEIGHT + V_SPACING) - V_SPACING

mutual

/-- The source function calculatePositions: record this node at the x of
its level and the y handed down by its parent, then lay out the children
stacked vertically and centered on this node. Positions are collected in
visit order as id-x-y triples. -/
def layoutAux : Node → ℕ → ℚ → List (String × ℚ × ℚ)
  | .mk i _ c, level, parentY =>
    (i, (level : ℚ) * (NODE_WIDTH + H_SPACING), parentY) ::
      (match c with
       | none => []
       | some l =>
         layoutChildren l (level + 1) (parentY - totalChildHeight l.length / 2))

/-- The child loop of calculatePositions: each child is laid out at the
running y plus half a node height, and the running y advances by node
height plus vertical spacing. -/
def layoutChildren : List Node → ℕ → ℚ → List (String × ℚ × ℚ)
  | [], _, _ => []
  | c :: cs, level, currentY =>
    layoutAux c level (currentY + NODE_HEIGHT / 2) ++
      layoutChildren cs level (currentY + (NODE_HEIGHT + V_SPACING))

end

/-- The whole layout of a tree: calculatePositions from the root at level
zero and y zero. -/
def computeLayout (T : Node) : List (String × ℚ × ℚ) :=
  layoutAux T 0 0

mutual

/-- The tree depth of every node, in the same visit order as the layout. -/
def depthAux : Node → ℕ → List (String × ℕ)
  | .mk i _ c, d =>
    (i, d) :: (
      match c with
      | none => []
      | some l => depthChildren l (d + 1))

/-- depthAux over a list of trees. -/
def depthChildren : List Node → ℕ → List (String × ℕ)
  | [], _ => []
  | c :: cs, d => depthAux c d ++ depthChildren cs d

end

-- Viewport controller.

/-- The viewBox state: a logical rectangle. -/
structure ViewBox where
  x : ℚ
  y : ℚ
  width : ℚ
  height : ℚ
deriving DecidableEq

/-- The bounding client rect of the svg element in screen coordinates. -/
structure ScreenRect where
  left : ℚ
  top : ℚ
  width : ℚ
  height : ℚ
deriving DecidableEq

/-- Conversion of a screen point to logical coordinates, as computed for
mouseX and mouseY inside handleWheel. -/
def screenToLogical (r : ScreenRect) (vb : ViewBox) (px py : ℚ) : ℚ × ℚ :=
  (vb.x + (px - r.left) * (vb.width / r.width),
   vb.y + (py - r.top) * (vb.height / r.height))

/-- The source function handleWheel: convert the pointer position to a
logical point with the current viewBox, scale width and height by the zoom
factor (divide when zooming in, multiply when zooming out), and re-derive
x and y from the logical point under the pointer. -/
def zoomAt (vb : ViewBox) (r : ScreenRect) (px py : ℚ) (zoomIn : Bool) : ViewBox :=
  let mouseX := vb.x + (px - r.left) * (vb.width / r.width)
  let mouseY := vb.y + (py - r.top) * (vb.height / r.height)
  let newWidth := if zoomIn then vb.width / zoomFactor else vb.width * zoomFactor
  let newHeight := if zoomIn then vb.height / zoomFactor else vb.height * zoomFactor
  { x := mouseX - (px - r.left) * (newWidth / r.width),
    y := mouseY - (py - r.top) * (newHeight / r.height),
    width := newWidth,
    height := newHeight }

/-- The pan update of handleMouseMove: shift x and y by the screen delta
scaled by viewBox width over client width, leave width and height alone. -/
def panBy (vb : ViewBox) (dx dy clientWidth : ℚ) : ViewBox :=
  let scale := vb.width / clientWidth
  { vb with x := vb.x - dx * scale, y := vb.y - dy * scale }

/-- A viewport operation: one pan step or one wheel zoom. -/
inductive ViewOp where
  | pan (dx dy clientWidth : ℚ)
  | zoom (r : ScreenRect) (px py : ℚ) (zoomIn : Bool)

/-- Apply one viewport operation. -/
def applyViewOp (vb : ViewBox) : ViewOp → ViewBox
  | .pan dx dy cw => panBy vb dx dy cw
  | .zoom r px py zin => zoomAt vb r px py zin

/-- Apply a sequence of viewport operations in order. -/
def applyViewOps (vb : ViewBox) (ops : List ViewOp) : ViewBox :=
  ops.foldl applyViewOp vb

/-- The width-over-height ratio of a viewBox. -/
def aspectRatio (vb : ViewBox) : ℚ :=
  vb.width / vb.height

-- Interaction state machine of the final robust variant.

/-- The gesture tag held in interactionRef. -/
inductive IType where
  | none
  | pan
  | drag
  | edit
deriving DecidableEq

/-- The interaction-relevant component state: the tree snapshot, the
interactionRef tag and its captured node id, and the editing, selection,
drop-target and ghost state. Pointer coordinates only feed the viewBox and
the ghost position and never influence which gesture is active, so they
are not part of this state. -/
structure UIState where
  data : Node
  itype : IType
  dragId : Option String
  editingId : Option String
  editedText : String
  selectedId : Option String
  dropTargetId : Option String
  ghostId : Option String

/-- The pointer, wheel-free events the component consumes. -/
inductive UIEvent where
  | nodeMouseDown (id : String)
  | nodeDoubleClick (id : String)
  | backgroundMouseDown
  | mouseMove
  | mouseUp
  | textChange (s : String)
  | textBlur
  | nodeMouseOver (id : String)
  | nodeMouseOut

/-- The auto-save applied by handleBackgroundMouseDown and handleTextBlur:
when a node is being edited and its text differs from the draft, commit the
rename; otherwise leave the tree alone. -/
def commitEdit (T : Node) (editingId : Option String) (editedText : String) : Node :=
  match editingId with
  | some eid =>
    match findNode T eid with
    | some n => if n.text ≠ editedText then renameNode T eid editedText else T
    | none => T
  | none => T

/-- The reparent attempt of handleMouseUp: look the dragged node up in the
current snapshot, refuse on a missing node or a drop inside the dragged
subtree, otherwise remove and re-append. -/
def dropCommit (T : Node) (nodeId targetId : String) : Node :=
  match findNode T nodeId with
  | none => T
  | some draggedNode =>
    if isDescendant draggedNode targetId then T
    else addNode (removeNode T nodeId) targetId draggedNode

/-- One transition of the interaction state machine, following the
handlers of the final robust variant: handleNodeMouseDown,
handleNodeDoubleClick, handleBackgroundMouseDown, handleMouseMove,
handleMouseUp, text change, handleTextBlur, and the drop-target hover
handlers. -/
def step (s : UIState) : UIEvent → UIState
  | .nodeMouseDown i =>
    { s with itype := .drag, dragId := some i, selectedId := some i }
  | .nodeDoubleClick i =>
    let s1 := { s with itype := .edit, dragId := Option.none, ghostId := Option.none }
    match findNode s.data i with
    | some n => { s1 with editingId := some i, editedText := n.text, selectedId := some i }
    | none => s1
  | .backgroundMouseDown =>
    { s with data := commitEdit s.data s.editingId s.editedText,
             editingId := Option.none, selectedId := Option.none,
             itype := .pan, dragId := Option.none }
  | .mouseMove =>
    if s.itype = .drag then
      { s with ghostId :=
          match s.ghostId with
          | some g => some g
          | none =>
            match s.dragId with
            | some nid => (findNode s.data nid).map Node.id
            | none => Option.none }
    else s
  | .mouseUp =>
    let d :=
      match s.itype, s.dragId, s.dropTargetId with
      | .drag, some nid, some tid =>
        if nid ≠ tid then dropCommit s.data nid tid else s.data
      | _, _, _ => s.data
    { s with data := d, itype := .none, dragId := Option.none,
             ghostId := Option.none, dropTargetId := Option.none }
  | .textChange str => { s with editedText := str }
  | .textBlur =>
    { s with data := commitEdit s.data s.editingId s.editedText,
             editingId := Option.none }
  | .nodeMouseOver i => { s with dropTargetId := some i }
  | .nodeMouseOut => { s with dropTargetId := Option.none }

/-- Run the machine over a list of events. -/
def run (s : UIState) (evs : List UIEvent) : UIState :=
  evs.foldl step s

/-- The initial idle state over a tree snapshot. -/
def initState (T : Node) : UIState where
  data := T
  itype := .none
  dragId := Option.none
  editingId := Option.none
  editedText := ""
  selectedId := Option.none
  dropTargetId := Option.none
  ghostId := Option.none

/-- The keyboard dispatch of the editing textarea in the first variant:
Enter without shift saves, Escape cancels, anything else does nothing. -/
inductive EditKeyAction where
  | save
  | cancel
  | noop
deriving DecidableEq

/-- handleKeyDown of MindMapNode: classify a key event. -/
def editKeyDown (key : String) (shiftKey : Bool) : EditKeyAction :=
  if key = "Enter" && !shiftKey then .save
  else if key = "Escape" then .cancel
  else .noop

/-- The effect of an edit action on the tree and the editing id, following
handleSave (which calls handleUpdateNode, an unconditional renameNode plus
clearing the editing id) and onCancel (which only clears the editing id). -/
def applyEditAction (T : Node) (nodeId draft : String) :
    EditKeyAction → Node × Option String
  | .save => (renameNode T nodeId draft, Option.none)
  | .cancel => (T, Option.none)
  | .noop => (T, some nodeId)

/-- The predicate form of isNormalB. -/
def isNormal (n : Node) : Prop := isNormalB n = true

instance (n : Node) : Decidable (isNormal n) := by
  unfold isNormal
  infer_instance

mutual

/-- The reparent step exactly as the specification describes it, in one
pass: detach the subtree whose root id is the dragged id from its parent's
children (keeping the order of the remaining siblings), and append the
dragged subtree, unchanged, at the end of the children of the node whose id
is the target id; every other node keeps its id, its text and its other
children. Written from the specification sentence to be compared with the
remove-then-add composition of the source. -/
def detachAppend (a b : String) (sub : Node) : Node → Node
  | .mk i t c =>
    .mk i t (some (
      (match c with
       | none => []
       | some l => detachL a b sub l) ++ (if i = b then [sub] else [])))

/-- The child walk of detachAppend: drop the dragged child, recurse into
the others. -/
def detachL (a b : String) (sub : Node) : List Node → List Node
  | [] => []
  | c :: cs =>
    if c.id = a then detachL a b sub cs
    else detachAppend a b sub c :: detachL a b sub cs

end

-- Concrete trees used to evaluate the operations at specific inputs.

/-- A tree with root id root and two children a (with one grandchild c)
and b; the children property of c and b is absent. -/
def exTree : Node :=
  .mk "root" "R" (some [.mk "a" "A" (some [.mk "c" "C" Option.none]),
    .mk "b" "B" Option.none])

/-- A fully normal tree with root r, child a, grandchild c, and a second
child b of the root. -/
def exTree2 : Node :=
  .mk "r" "R" (some [.mk "a" "A" (some [.mk "c" "C" (some [])]),
    .mk "b" "B" (some [])])

/-- A parent with exactly three leaf children. -/
def exThree : Node :=
  .mk "p" "P" (some [.mk "x1" "one" Option.none, .mk "x2" "two" Option.none,
    .mk "x3" "three" Option.none])

theorem Node.sizeOf_lt_of_mem {n c : Node} (h : c ∈ n.childrenD) :
    sizeOf c < sizeOf n := by
  cases n with
  | mk i t ch =>
    cases ch with
    | none => simp [Node.childrenD, Node.children] at h
    | some l =>
      simp only [Node.childrenD, Node.children, Option.getD] at h
      have := List.sizeOf_lt_of_mem h
      simp only [Node.mk.sizeOf_spec, Option.some.sizeOf_spec]
      omega

/-- Strong induction over a node and its (defaulted) children. -/
theorem Node.inductionOn {P : Node → Prop}
    (h : ∀ n : Node, (∀ c ∈ n.childrenD, P c) → P n) : ∀ n, P n
  | n => h n fun c hc => Node.inductionOn h c
termination_by n => sizeOf n
decreasing_by exact Node.sizeOf_lt_of_mem hc

-- Small constructor-shape lemmas.

@[simp]
theorem Node.id_mk (i t : String) (c : Option (List Node)) :
    (Node.mk i t c).id = i := rfl

@[simp]
theorem Node.text_mk (i t : String) (c : Option (List Node)) :
    (Node.mk i t c).text = t := rfl

@[simp]
theorem Node.children_mk (i t : String) (c : Option (List Node)) :
    (Node.mk i t c).children = c := rfl

@[simp]
theorem Node.childrenD_mk_none (i t : String) :
    (Node.mk i t Option.none).childrenD = [] := rfl

@[simp]
theorem Node.childrenD_mk_some (i t : String) (l : List Node) :
    (Node.mk i t (some l)).childrenD = l := rfl

theorem Node.eta (n : Node) : Node.mk n.id n.text n.children = n := by
  cases n
  rfl

-- Bridging equations: each operation restated through childrenD, in the
-- filter-map shape of the source.

theorem findNode_def (n : Node) (q : String) :
    findNode n q = if n.id = q then some n else findNodeL n.childrenD q := by
  cases n with
  | mk i t c => cases c <;> simp [findNode, findNodeL]

@[simp]
theorem findNodeL_nil (q : String) : findNodeL [] q = none := by
  simp [findNodeL]

theorem findNodeL_cons (c : Node) (cs : List Node) (q : String) :
    findNodeL (c :: cs) q =
      match findNode c q with
      | some r => some r
      | none => findNodeL cs q := by
  simp [findNodeL]

theorem isDescendant_def (n : Node) (q : String) :
    isDescendant n q = if n.id = q then true else isDescL n.childrenD q := by
  cases n with
  | mk i t c => cases c <;> simp [isDescendant, isDescL]

@[simp]
theorem isDescL_nil (q : String) : isDescL [] q = false := by
  simp [isDescL]

@[simp]
theorem isDescL_cons (c : Node) (cs : List Node) (q : String) :
    isDescL (c :: cs) q = (isDescendant c q || isDescL cs q) := by
  simp [isDescL]

theorem renameL_eq (l : List Node) (q s : String) :
    renameL l q s = l.map (renameNode · q s) := by
  induction l with
  | nil => simp [renameL]
  | cons c cs ih => simp [renameL, ih]

theorem renameNode_def (n : Node) (q s : String) :
    renameNode n q s =
      if n.id = q then Node.mk n.id s n.children
      else Node.mk n.id n.text (some (n.childrenD.map (renameNode · q s))) := by
  cases n with
  | mk i t c => cases c <;> simp [renameNode, renameL_eq]

theorem removeL_eq (l : List Node) (q : String) :
    removeL l q = (l.filter fun c => c.id ≠ q).map (removeNode · q) := by
  induction l with
  | nil => simp [removeL]
  | cons c cs ih =>
    by_cases h : c.id = q <;> simp [removeL, h, ih, List.filter_cons]

theorem removeNode_def (n : Node) (q : String) :
    removeNode n q =
      Node.mk n.id n.text
        (some ((n.childrenD.filter fun c => c.id ≠ q).map (removeNode · q))) := by
  cases n with
  | mk i t c => cases c <;> simp [removeNode, removeL_eq]

theorem addL_eq (l : List Node) (p : String) (x : Node) :
    addL l p x = l.map (addNode · p x) := by
  induction l with
  | nil => simp [addL]
  | cons c cs ih => simp [addL, ih]

theorem addNode_def (n : Node) (p : String) (x : Node) :
    addNode n p x =
      if n.id = p then Node.mk n.id n.text (some (n.childrenD ++ [x]))
      else Node.mk n.id n.text (some (n.childrenD.map (addNode · p x))) := by
  cases n with
  | mk i t c => cases c <;> simp [addNode, addL_eq, Node.childrenD]

theorem idsL_eq (l : List Node) : idsL l = l.flatMap ids := by
  induction l with
  | nil => simp [idsL]
  | cons c cs ih => simp [idsL, ih]

theorem ids_def (n : Node) : ids n = n.id :: n.childrenD.flatMap ids := by
  cases n with
  | mk i t c => cases c <;> simp [ids, idsL_eq]

theorem normalizeL_eq (l : List Node) : normalizeL l = l.map normalize := by
  induction l with
  | nil => simp [normalizeL]
  | cons c cs ih => simp [normalizeL, ih]

theorem normalize_def (n : Node) :
    normalize n = Node.mk n.id n.text (some (n.childrenD.map normalize)) := by
  cases n with
  | mk i t c => cases c <;> simp [normalize, normalizeL_eq]

theorem isNormalL_eq (l : List Node) : isNormalL l = l.all isNormalB := by
  induction l with
  | nil => simp [isNormalL]
  | cons c cs ih => simp [isNormalL, ih]

theorem isNormal_iff (n : Node) :
    isNormal n ↔ n.children.isSome = true ∧ ∀ c ∈ n.childrenD, isNormal c := by
  cases n with
  | mk i t c =>
    cases c with
    | none => simp [isNormal, isNormalB]
    | some l => simp [isNormal, isNormalB, isNormalL_eq, List.all_eq_true]

theorem layoutAux_def (n : Node) (level : ℕ) (parentY : ℚ) :
    layoutAux n level parentY =
      (n.id, (level : ℚ) * (NODE_WIDTH + H_SPACING), parentY) ::
        layoutChildren n.childrenD (level + 1)
          (parentY - totalChildHeight n.childrenD.length / 2) := by
  cases n with
  | mk i t c => cases c <;> simp [layoutAux, layoutChildren]

@[simp]
theorem layoutChildren_nil (level : ℕ) (y : ℚ) : layoutChildren [] level y = [] := by
  simp [layoutChildren]

theorem layoutChildren_cons (c : Node) (cs : List Node) (level : ℕ) (y : ℚ) :
    layoutChildren (c :: cs) level y =
      layoutAux c level (y + NODE_HEIGHT / 2) ++
        layoutChildren cs level (y + (NODE_HEIGHT + V_SPACING)) := by
  simp [layoutChildren]

theorem depthChildren_eq (l : List Node) (d : ℕ) :
    depthChildren l d = l.flatMap (depthAux · d) := by
  induction l with
  | nil => simp [depthChildren]
  | cons c cs ih => simp [depthChildren, ih]

theorem depthAux_def (n : Node) (d : ℕ) :
    depthAux n d = (n.id, d) :: n.childrenD.flatMap (depthAux · (d + 1)) := by
  cases n with
  | mk i t c => cases c <;> simp [depthAux, depthChildren_eq]

-- Generic list facts used below.

theorem nodup_of_mem_flatMap {α β : Type _} {l : List α} {f : α → List β}
    (h : (l.flatMap f).Nodup) {x : α} (hx : x ∈ l) : (f x).Nodup := by
  induction l with
  | nil => simp at hx
  | cons c cs ih =>
    rw [List.flatMap_cons] at h
    rcases List.nodup_append.mp h with ⟨h1, h2, _⟩
    rcases List.mem_cons.mp hx with rfl | hx
    · exact h1
    · exact ih h2 hx

theorem map_eq_self_of {α : Type _} {l : List α} {f : α → α}
    (h : ∀ x ∈ l, f x = x) : l.map f = l := by
  induction l with
  | nil => rfl
  | cons c cs ih =>
    rw [List.map_cons, h c (by simp), ih fun x hx => h x (List.mem_cons_of_mem _ hx)]

-- Membership in the id list.

theorem id_mem_ids (n : Node) : n.id ∈ ids n := by
  rw [ids_def]
  exact List.mem_cons_self _ _

theorem isNormal_of_mem {n c : Node} (hn : isNormal n) (hc : c ∈ n.childrenD) :
    isNormal c :=
  ((isNormal_iff n).mp hn).2 c hc

theorem nodup_ids_of_mem {n c : Node} (hU : (ids n).Nodup) (hc : c ∈ n.childrenD) :
    (ids c).Nodup := by
  rw [ids_def] at hU
  exact nodup_of_mem_flatMap (List.Nodup.of_cons hU) hc

theorem children_eq_some {n : Node} (hn : isNormal n) :
    n.children = some n.childrenD := by
  cases n with
  | mk i t c =>
    cases c with
    | none => simp [isNormal, isNormalB] at hn
    | some l => rfl

-- isDescendant is exactly membership in the subtree id list.

theorem isDescL_iff_mem (l : List Node) (q : String)
    (IH : ∀ c ∈ l, (isDescendant c q = true ↔ q ∈ ids c)) :
    (isDescL l q = true ↔ q ∈ l.flatMap ids) := by
  induction l with
  | nil => simp
  | cons c cs ih =>
    rw [isDescL_cons, List.flatMap_cons]
    simp only [Bool.or_eq_true, List.mem_append]
    rw [IH c (by simp), ih fun c hc => IH c (List.mem_cons_of_mem _ hc)]

theorem isDescendant_iff_mem_ids : ∀ (n : Node) (q : String),
    isDescendant n q = true ↔ q ∈ ids n := by
  intro n
  induction n using Node.inductionOn with
  | _ n IH =>
    intro q
    rw [isDescendant_def, ids_def]
    by_cases h : n.id = q
    · simp [h]
    · rw [if_neg h]
      rw [isDescL_iff_mem _ _ fun c hc => IH c hc q]
      simp only [List.mem_cons]
      constructor
      · exact fun hm => Or.inr hm
      · rintro (rfl | hm)
        · exact absurd rfl h
        · exact hm

theorem isDescendant_eq_false_iff (n : Node) (q : String) :
    isDescendant n q = false ↔ q ∉ ids n := by
  rw [← isDescendant_iff_mem_ids]
  cases h : isDescendant n q <;> simp

-- findNode: success and failure characterizations.

theorem findNodeL_eq_none (l : List Node) (q : String)
    (h : ∀ c ∈ l, findNode c q = none) : findNodeL l q = none := by
  induction l with
  | nil => simp
  | cons c cs ih =>
    rw [findNodeL_cons, h c (by simp)]
    exact ih fun c hc => h c (List.mem_cons_of_mem _ hc)

theorem findNodeL_eq_none_iff (l : List Node) (q : String)
    (IH : ∀ c ∈ l, (findNode c q = none ↔ q ∉ ids c)) :
    (findNodeL l q = none ↔ q ∉ l.flatMap ids) := by
  induction l with
  | nil => simp
  | cons c cs ih =>
    rw [findNodeL_cons, List.flatMap_cons]
    cases hc : findNode c q with
    | some r =>
      simp only [List.mem_append]
      have : q ∈ ids c := by
        by_contra hq
        rw [(IH c (by simp)).mpr hq] at hc
        exact Option.noConfusion hc
      simp [this]
    | none =>
      have hq : q ∉ ids c := (IH c (by simp)).mp hc
      rw [ih fun c hc => IH c (List.mem_cons_of_mem _ hc)]
      simp [hq]

theorem findNode_eq_none_iff : ∀ (n : Node) (q : String),
    findNode n q = none ↔ q ∉ ids n := by
  intro n
  induction n using Node.inductionOn with
  | _ n IH =>
    intro q
    rw [findNode_def, ids_def]
    by_cases h : n.id = q
    · simp [h]
    · rw [if_neg h]
      rw [findNodeL_eq_none_iff _ _ fun c hc => IH c hc q]
      simp only [List.mem_cons]
      constructor
      · rintro hm (rfl | hq)
        · exact h rfl
        · exact hm hq
      · exact fun hm hq => hm (Or.inr hq)

theorem findNode_mem_ids {n : Node} {q : String} {m : Node}
    (h : findNode n q = some m) : q ∈ ids n := by
  by_contra hq
  rw [(findNode_eq_none_iff n q).mpr hq] at h
  exact Option.noConfusion h

theorem findNode_of_mem {n : Node} {q : String} (h : q ∈ ids n) :
    ∃ m, findNode n q = some m := by
  cases ho : findNode n q with
  | none => exact absurd ((findNode_eq_none_iff n q).mp ho) (not_not_intro h)
  | some m => exact ⟨m, rfl⟩

theorem findNodeL_id (l : List Node) (q : String) (m : Node)
    (IH : ∀ c ∈ l, ∀ m, findNode c q = some m → m.id = q) :
    findNodeL l q = some m → m.id = q := by
  induction l with
  | nil => simp
  | cons c cs ih =>
    rw [findNodeL_cons]
    cases hc : findNode c q with
    | some r =>
      intro h
      cases h
      exact IH c (by simp) _ hc
    | none => exact ih fun c hc => IH c (List.mem_cons_of_mem _ hc)

theorem findNode_id : ∀ {n : Node} {q : String} {m : Node},
    findNode n q = some m → m.id = q := by
  intro n
  induction n using Node.inductionOn with
  | _ n IH =>
    intro q m
    rw [findNode_def]
    by_cases h : n.id = q
    · rw [if_pos h]
      intro hm
      cases hm
      exact h
    · rw [if_neg h]
      exact findNodeL_id _ _ _ fun c hc m hm => IH c hc hm

theorem findNode_self (n : Node) : findNode n n.id = some n := by
  rw [findNode_def, if_pos rfl]

theorem findNodeL_append (l₁ l₂ : List Node) (q : String) :
    findNodeL (l₁ ++ l₂) q =
      match findNodeL l₁ q with
      | some r => some r
      | none => findNodeL l₂ q := by
  induction l₁ with
  | nil => simp
  | cons c cs ih =>
    rw [List.cons_append, findNodeL_cons, findNodeL_cons]
    cases hc : findNode c q with
    | some r => rfl
    | none => exact ih

theorem findNodeL_split {l : List Node} {q : String} {sub : Node}
    (h : findNodeL l q = some sub) :
    ∃ l₁ c₁ l₂, l = l₁ ++ c₁ :: l₂ ∧ (∀ c ∈ l₁, findNode c q = none) ∧
      findNode c₁ q = some sub := by
  induction l with
  | nil => simp at h
  | cons c cs ih =>
    rw [findNodeL_cons] at h
    cases hc : findNode c q with
    | some r =>
      rw [hc] at h
      cases h
      exact ⟨[], c, cs, rfl, by simp, hc⟩
    | none =>
      rw [hc] at h
      rcases ih h with ⟨l₁, c₁, l₂, rfl, hnone, hfound⟩
      refine ⟨c :: l₁, c₁, l₂, rfl, ?_, hfound⟩
      intro d hd
      rcases List.mem_cons.mp hd with rfl | hd
      · exact hc
      · exact hnone d hd

-- No-op lemmas: operations that touch no node of a normal tree return it
-- unchanged.

theorem removeNode_eq_self : ∀ (n : Node) (q : String), isNormal n →
    q ∉ n.childrenD.flatMap ids → removeNode n q = n := by
  intro n
  induction n using Node.inductionOn with
  | _ n IH =>
    intro q hn hq
    rw [removeNode_def]
    have hfilter : n.childrenD.filter (fun c => c.id ≠ q) = n.childrenD := by
      rw [List.filter_eq_self]
      intro c hc
      have : c.id ∈ ids c := id_mem_ids c
      have : c.id ∈ n.childrenD.flatMap ids := List.mem_flatMap.mpr ⟨c, hc, this⟩
      simp only [ne_eq, decide_eq_true_eq]
      intro hcq
      exact hq (hcq ▸ this)
    rw [hfilter]
    have hmap : n.childrenD.map (removeNode · q) = n.childrenD := by
      refine map_eq_self_of ?_
      intro c hc
      refine IH c hc q (isNormal_of_mem hn hc) ?_
      intro hmem
      have h1 : q ∈ ids c := by
        rw [ids_def]
        exact List.mem_cons_of_mem _ hmem
      exact hq (List.mem_flatMap.mpr ⟨c, hc, h1⟩)
    rw [hmap, ← children_eq_some hn, Node.eta]

theorem removeNode_eq_self_of_not_mem {n : Node} {q : String} (hn : isNormal n)
    (hq : q ∉ ids n) : removeNode n q = n := by
  refine removeNode_eq_self n q hn ?_
  intro hmem
  rcases List.mem_flatMap.mp hmem with ⟨c, hc, hqc⟩
  refine hq ?_
  rw [ids_def]
  exact List.mem_cons_of_mem _ (List.mem_flatMap.mpr ⟨c, hc, hqc⟩)

theorem addNode_eq_self : ∀ (n : Node) (p : String) (x : Node), isNormal n →
    p ∉ ids n → addNode n p x = n := by
  intro n
  induction n using Node.inductionOn with
  | _ n IH =>
    intro p x hn hp
    rw [addNode_def]
    have hne : n.id ≠ p := fun h => hp (h ▸ id_mem_ids n)
    rw [if_neg hne]
    have hmap : n.childrenD.map (addNode · p x) = n.childrenD := by
      refine map_eq_self_of ?_
      intro c hc
      refine IH c hc p x (isNormal_of_mem hn hc) ?_
      intro hmem
      refine hp ?_
      rw [ids_def]
      exact List.mem_cons_of_mem _ (List.mem_flatMap.mpr ⟨c, hc, hmem⟩)
    rw [hmap, ← children_eq_some hn, Node.eta]

theorem renameNode_eq_self : ∀ (n : Node) (q s : String), isNormal n →
    q ∉ ids n → renameNode n q s = n := by
  intro n
  induction n using Node.inductionOn with
  | _ n IH =>
    intro q s hn hq
    rw [renameNode_def]
    have hne : n.id ≠ q := fun h => hq (h ▸ id_mem_ids n)
    rw [if_neg hne]
    have hmap : n.childrenD.map (renameNode · q s) = n.childrenD := by
      refine map_eq_self_of ?_
      intro c hc
      refine IH c hc q s (isNormal_of_mem hn hc) ?_
      intro hmem
      refine hq ?_
      rw [ids_def]
      exact List.mem_cons_of_mem _ (List.mem_flatMap.mpr ⟨c, hc, hmem⟩)
    rw [hmap, ← children_eq_some hn, Node.eta]

-- Normalization: replacing absent children lists by empty ones commutes
-- with every operation, which is the precise sense in which the source
-- treats a missing children property exactly like an empty list.

@[simp]
theorem normalize_id (n : Node) : (normalize n).id = n.id := by
  rw [normalize_def]
  rfl

@[simp]
theorem normalize_text (n : Node) : (normalize n).text = n.text := by
  rw [normalize_def]
  rfl

@[simp]
theorem normalize_childrenD (n : Node) :
    (normalize n).childrenD = n.childrenD.map normalize := by
  rw [normalize_def]
  rfl

theorem normalize_children (n : Node) :
    (normalize n).children = some (n.childrenD.map normalize) := by
  rw [normalize_def]
  rfl

theorem normalize_mk_some (i t : String) (l : List Node) :
    normalize (Node.mk i t (some l)) = Node.mk i t (some (l.map normalize)) := by
  rw [normalize_def]
  rfl

theorem normalize_eq_self : ∀ (n : Node), isNormal n → normalize n = n := by
  intro n
  induction n using Node.inductionOn with
  | _ n IH =>
    intro hn
    rw [normalize_def]
    have hmap : n.childrenD.map normalize = n.childrenD :=
      map_eq_self_of fun c hc => IH c hc (isNormal_of_mem hn hc)
    rw [hmap, ← children_eq_some hn, Node.eta]

theorem findNodeL_normalize (l : List Node) (q : String)
    (IH : ∀ c ∈ l, findNode (normalize c) q = (findNode c q).map normalize) :
    findNodeL (l.map normalize) q = (findNodeL l q).map normalize := by
  induction l with
  | nil => simp
  | cons c cs ih =>
    rw [List.map_cons, findNodeL_cons, findNodeL_cons]
    cases hc : findNode c q with
    | some r =>
      rw [IH c (by simp), hc]
      rfl
    | none =>
      rw [IH c (by simp), hc]
      exact ih fun c hc => IH c (List.mem_cons_of_mem _ hc)

theorem findNode_normalize : ∀ (n : Node) (q : String),
    findNode (normalize n) q = (findNode n q).map normalize := by
  intro n
  induction n using Node.inductionOn with
  | _ n IH =>
    intro q
    rw [findNode_def, findNode_def, normalize_id, normalize_childrenD]
    by_cases h : n.id = q
    · simp [h]
    · rw [if_neg h, if_neg h]
      exact findNodeL_normalize _ _ fun c hc => IH c hc q

theorem isDescL_normalize (l : List Node) (q : String)
    (IH : ∀ c ∈ l, isDescendant (normalize c) q = isDescendant c q) :
    isDescL (l.map normalize) q = isDescL l q := by
  induction l with
  | nil => simp
  | cons c cs ih =>
    rw [List.map_cons, isDescL_cons, isDescL_cons, IH c (by simp),
      ih fun c hc => IH c (List.mem_cons_of_mem _ hc)]

theorem isDescendant_normalize : ∀ (n : Node) (q : String),
    isDescendant (normalize n) q = isDescendant n q := by
  intro n
  induction n using Node.inductionOn with
  | _ n IH =>
    intro q
    rw [isDescendant_def, isDescendant_def, normalize_id, normalize_childrenD]
    by_cases h : n.id = q
    · simp [h]
    · rw [if_neg h, if_neg h]
      exact isDescL_normalize _ _ fun c hc => IH c hc q

theorem layoutChildren_map_normalize (l : List Node) (level : ℕ)
    (IH : ∀ c ∈ l, ∀ level y, layoutAux (normalize c) level y = layoutAux c level y) :
    ∀ y, layoutChildren (l.map normalize) level y = layoutChildren l level y := by
  induction l with
  | nil => simp
  | cons c cs ih =>
    intro y
    rw [List.map_cons, layoutChildren_cons, layoutChildren_cons, IH c (by simp),
      ih fun c hc => IH c (List.mem_cons_of_mem _ hc)]

theorem layoutAux_normalize : ∀ (n : Node) (level : ℕ) (y : ℚ),
    layoutAux (normalize n) level y = layoutAux n level y := by
  intro n
  induction n using Node.inductionOn with
  | _ n IH =>
    intro level y
    rw [layoutAux_def, layoutAux_def, normalize_id, normalize_childrenD,
      List.length_map]
    rw [layoutChildren_map_normalize _ _ (fun c hc => IH c hc)]

theorem renameL_map_normalize (l : List Node) (q s : String)
    (IH : ∀ c ∈ l, renameNode (normalize c) q s = normalize (renameNode c q s)) :
    (l.map normalize).map (renameNode · q s) = (l.map (renameNode · q s)).map normalize := by
  rw [List.map_map, List.map_map]
  exact List.map_congr_left fun c hc => IH c hc

theorem renameNode_normalize : ∀ (n : Node) (q s : String),
    renameNode (normalize n) q s = normalize (renameNode n q s) := by
  intro n
  induction n using Node.inductionOn with
  | _ n IH =>
    intro q s
    rw [renameNode_def, renameNode_def, normalize_id]
    by_cases h : n.id = q
    · rw [if_pos h, if_pos h, normalize_children, normalize_def]
      rfl
    · rw [if_neg h, if_neg h, normalize_text, normalize_childrenD,
        normalize_mk_some]
      simp only [Node.mk.injEq, Option.some.injEq, true_and]
      exact renameL_map_normalize _ _ _ fun c hc => IH c hc q s

theorem removeNode_normalize : ∀ (n : Node) (q : String),
    removeNode (normalize n) q = normalize (removeNode n q) := by
  intro n
  induction n using Node.inductionOn with
  | _ n IH =>
    intro q
    rw [removeNode_def, removeNode_def, normalize_id, normalize_text,
      normalize_childrenD, normalize_mk_some]
    have hfilter :
        (n.childrenD.map normalize).filter (fun c => c.id ≠ q) =
          (n.childrenD.filter fun c => c.id ≠ q).map normalize := by
      rw [List.filter_map]
      refine congrArg _ (List.filter_congr ?_)
      intro c hc
      simp [Function.comp]
    rw [hfilter]
    simp only [Node.mk.injEq, Option.some.injEq, true_and]
    rw [List.map_map, List.map_map]
    exact List.map_congr_left fun c hc => IH c (List.mem_of_mem_filter hc) q

theorem addNode_normalize : ∀ (n : Node) (p : String) (x : Node),
    addNode (normalize n) p (normalize x) = normalize (addNode n p x) := by
  intro n
  induction n using Node.inductionOn with
  | _ n IH =>
    intro p x
    rw [addNode_def, addNode_def, normalize_id]
    by_cases h : n.id = p
    · rw [if_pos h, if_pos h, normalize_text, normalize_childrenD,
        normalize_mk_some]
      simp [List.map_append]
    · rw [if_neg h, if_neg h, normalize_text, normalize_childrenD,
        normalize_mk_some]
      simp only [Node.mk.injEq, Option.some.injEq, true_and]
      rw [List.map_map, List.map_map]
      exact List.map_congr_left fun c hc => IH c hc p x

theorem reparentNode_normalize : ∀ (T : Node) (a b : String),
    reparentNode (normalize T) a b = normalize (reparentNode T a b) := by
  intro T a b
  unfold reparentNode
  by_cases h : a = b ∨ a = "root"
  · rw [if_pos h, if_pos h]
  · rw [if_neg h, if_neg h, findNode_normalize]
    cases hf : findNode T a with
    | none => rfl
    | some sub =>
      have hm : Option.map normalize (some sub) = some (normalize sub) := rfl
      rw [hm]
      show (if isDescendant (normalize sub) b = true then normalize T
          else addNode (removeNode (normalize T) a) b (normalize sub)) =
        normalize (if isDescendant sub b = true then T
          else addNode (removeNode T a) b sub)
      rw [isDescendant_normalize]
      by_cases hd : isDescendant sub b = true
      · rw [if_pos hd, if_pos hd]
      · rw [if_neg hd, if_neg hd, removeNode_normalize]
        exact addNode_normalize _ b sub

-- detachAppend: bridging equation and its agreement with the source's
-- remove-then-add composition.

theorem detachL_eq (a b : String) (sub : Node) (l : List Node) :
    detachL a b sub l =
      (l.filter fun c => c.id ≠ a).map (detachAppend a b sub) := by
  induction l with
  | nil => simp [detachL]
  | cons c cs ih =>
    by_cases h : c.id = a <;> simp [detachL, h, ih, List.filter_cons]

theorem detachAppend_def (a b : String) (sub : Node) (n : Node) :
    detachAppend a b sub n =
      Node.mk n.id n.text (some (
        (n.childrenD.filter fun c => c.id ≠ a).map (detachAppend a b sub) ++
          (if n.id = b then [sub] else []))) := by
  cases n with
  | mk i t c => cases c <;> simp [detachAppend, detachL_eq]

theorem removeNode_isNormal : ∀ (n : Node) (q : String),
    isNormal (removeNode n q) := by
  intro n
  induction n using Node.inductionOn with
  | _ n IH =>
    intro q
    rw [removeNode_def, isNormal_iff]
    refine ⟨rfl, ?_⟩
    intro c hc
    simp only [Node.childrenD_mk_some, List.mem_map] at hc
    rcases hc with ⟨d, hd, rfl⟩
    exact IH d (List.mem_of_mem_filter hd) q

theorem ids_removeNode_subset : ∀ (n : Node) (q : String),
    ids (removeNode n q) ⊆ ids n := by
  intro n
  induction n using Node.inductionOn with
  | _ n IH =>
    intro q x hx
    rw [removeNode_def, ids_def] at hx
    simp only [Node.id_mk, Node.childrenD_mk_some, List.mem_cons,
      List.mem_flatMap, List.mem_map] at hx
    rw [ids_def, List.mem_cons]
    rcases hx with rfl | ⟨e, ⟨d, hd, rfl⟩, hxe⟩
    · exact Or.inl rfl
    · refine Or.inr (List.mem_flatMap.mpr ?_)
      exact ⟨d, List.mem_of_mem_filter hd,
        IH d (List.mem_of_mem_filter hd) q hxe⟩

theorem not_mem_ids_removeNode : ∀ (n : Node) (a : String), n.id ≠ a →
    a ∉ ids (removeNode n a) := by
  intro n
  induction n using Node.inductionOn with
  | _ n IH =>
    intro a hne hmem
    rw [removeNode_def, ids_def] at hmem
    simp only [Node.id_mk, Node.childrenD_mk_some, List.mem_cons,
      List.mem_flatMap, List.mem_map] at hmem
    rcases hmem with h | ⟨e, ⟨d, hd, rfl⟩, hae⟩
    · exact hne h.symm
    · have hdid : d.id ≠ a := by
        have := (List.mem_filter.mp hd).2
        simpa using this
      exact IH d (List.mem_of_mem_filter hd) a hdid hae

theorem detachAppend_eq_removeNode : ∀ (n : Node) {a b : String} {sub : Node},
    b ∉ ids n → detachAppend a b sub n = removeNode n a := by
  intro n
  induction n using Node.inductionOn with
  | _ n IH =>
    intro a b sub hb
    rw [detachAppend_def, removeNode_def]
    have hne : n.id ≠ b := fun h => hb (h ▸ id_mem_ids n)
    rw [if_neg hne, List.append_nil]
    refine congrArg _ (congrArg _ (List.map_congr_left ?_))
    intro c hc
    refine IH c (List.mem_of_mem_filter hc) ?_
    intro hmem
    refine hb ?_
    rw [ids_def]
    exact List.mem_cons_of_mem _
      (List.mem_flatMap.mpr ⟨c, List.mem_of_mem_filter hc, hmem⟩)

theorem mem_ids_removeNode : ∀ (n : Node) {a c : String} {sub : Node},
    isNormal n → (ids n).Nodup → n.id ≠ a → findNode n a = some sub →
    c ∈ ids n → c ∉ ids sub → c ∈ ids (removeNode n a) := by
  intro n
  induction n using Node.inductionOn with
  | _ n IH =>
    intro a c sub hN hU hne hfind hc hcsub
    have hmemres : ∀ d ∈ n.childrenD, d.id ≠ a → c ∈ ids (removeNode d a) →
        c ∈ ids (removeNode n a) := by
      intro d hd hda hcm
      rw [removeNode_def, ids_def]
      simp only [Node.id_mk, Node.childrenD_mk_some, List.mem_cons]
      refine Or.inr (List.mem_flatMap.mpr ?_)
      refine ⟨removeNode d a, List.mem_map_of_mem _ ?_, hcm⟩
      exact List.mem_filter.mpr ⟨hd, by simpa using hda⟩
    rw [findNode_def, if_neg hne] at hfind
    rcases findNodeL_split hfind with ⟨l₁, c₁, l₂, hsplit, hnone, hfound⟩
    rw [ids_def, List.mem_cons] at hc
    rcases hc with rfl | hc
    · rw [removeNode_def, ids_def]
      simp
    · rcases List.mem_flatMap.mp hc with ⟨d, hd, hcd⟩
      have hdmem : d ∈ n.childrenD := hd
      have hUflat : (n.childrenD.flatMap ids).Nodup := by
        rw [ids_def] at hU
        exact List.Nodup.of_cons hU
      have ha_in_c₁ : a ∈ ids c₁ := findNode_mem_ids hfound
      -- any child other than the one holding the dragged subtree is left
      -- alone by removeNode
      have huntouched : ∀ d ∈ n.childrenD, a ∉ ids d →
          c ∈ ids d → c ∈ ids (removeNode n a) := by
        intro d hd had hcd
        have hda : d.id ≠ a := fun h => had (h ▸ id_mem_ids d)
        have hself : removeNode d a = d :=
          removeNode_eq_self_of_not_mem (isNormal_of_mem hN hd) had
        refine hmemres d hd hda ?_
        rw [hself]
        exact hcd
      -- the children list splits around the first match
      have hflat : n.childrenD.flatMap ids =
          l₁.flatMap ids ++ (ids c₁ ++ l₂.flatMap ids) := by
        rw [hsplit]
        simp [List.flatMap_append]
      rw [hsplit, List.mem_append, List.mem_cons] at hdmem
      rcases hdmem with hd₁ | rfl | hd₂
      · -- a child before the first match: the dragged id is not inside it
        have had : a ∉ ids d := (findNode_eq_none_iff d a).mp (hnone d hd₁)
        exact huntouched d hd had hcd
      · -- the child holding the first match
        by_cases hida : d.id = a
        · -- the matched child is the dragged subtree itself
          rw [findNode_def, if_pos hida] at hfound
          cases hfound
          exact absurd hcd hcsub
        · have hcm : c ∈ ids (removeNode d a) :=
            IH d hd (isNormal_of_mem hN hd) (nodup_ids_of_mem hU hd) hida
              hfound hcd hcsub
          exact hmemres d hd hida hcm
      · -- a child after the first match: by id uniqueness the dragged id
        -- cannot occur there again
        have had : a ∉ ids d := by
          intro hmem
          rw [hflat] at hUflat
          rcases List.nodup_append.mp hUflat with ⟨_, hU2, _⟩
          rcases List.nodup_append.mp hU2 with ⟨_, _, hdisj⟩
          exact hdisj ha_in_c₁ (List.mem_flatMap.mpr ⟨d, hd₂, hmem⟩)
        exact huntouched d hd had hcd

theorem findNodeL_addNode_walk (l : List Node) (b : String) (x : Node)
    (hN : ∀ c ∈ l, isNormal c) (hx : ∀ c ∈ l, x.id ∉ ids c)
    (hb : b ∈ l.flatMap ids)
    (IH : ∀ c ∈ l, isNormal c → b ∈ ids c → x.id ∉ ids c →
      findNode (addNode c b x) x.id = some x) :
    findNodeL (l.map (addNode · b x)) x.id = some x := by
  induction l with
  | nil => simp at hb
  | cons c cs ih =>
    rw [List.map_cons, findNodeL_cons]
    by_cases hbc : b ∈ ids c
    · rw [IH c (by simp) (hN c (by simp)) hbc (hx c (by simp))]
    · have hcc : addNode c b x = c :=
        addNode_eq_self c b x (hN c (by simp)) hbc
      rw [hcc, (findNode_eq_none_iff c x.id).mpr (hx c (by simp))]
      have hbcs : b ∈ cs.flatMap ids := by
        rw [List.flatMap_cons, List.mem_append] at hb
        exact hb.resolve_left hbc
      exact ih (fun c hc => hN c (List.mem_cons_of_mem _ hc))
        (fun c hc => hx c (List.mem_cons_of_mem _ hc)) hbcs
        fun c hc => IH c (List.mem_cons_of_mem _ hc)

theorem findNode_addNode_new : ∀ (m : Node) (b : String) (x : Node),
    isNormal m → b ∈ ids m → x.id ∉ ids m →
    findNode (addNode m b x) x.id = some x := by
  intro m
  induction m using Node.inductionOn with
  | _ m IH =>
    intro b x hN hb hx
    have hmx : m.id ≠ x.id := fun h => hx (h ▸ id_mem_ids m)
    rw [addNode_def]
    by_cases hmb : m.id = b
    · rw [if_pos hmb, findNode_def]
      simp only [Node.id_mk, Node.childrenD_mk_some]
      rw [if_neg hmx, findNodeL_append]
      have hl : findNodeL m.childrenD x.id = none := by
        refine findNodeL_eq_none _ _ ?_
        intro c hc
        refine (findNode_eq_none_iff c x.id).mpr ?_
        intro hmem
        refine hx ?_
        rw [ids_def]
        exact List.mem_cons_of_mem _ (List.mem_flatMap.mpr ⟨c, hc, hmem⟩)
      rw [hl, findNodeL_cons, findNode_self x]
    · rw [if_neg hmb, findNode_def]
      simp only [Node.id_mk, Node.childrenD_mk_some]
      rw [if_neg hmx]
      have hbflat : b ∈ m.childrenD.flatMap ids := by
        rw [ids_def, List.mem_cons] at hb
        exact hb.resolve_left fun h => hmb h.symm
      refine findNodeL_addNode_walk _ _ _ (fun c hc => isNormal_of_mem hN hc)
        ?_ hbflat fun c hc h1 h2 h3 => IH c hc b x h1 h2 h3
      intro c hc hmem
      refine hx ?_
      rw [ids_def]
      exact List.mem_cons_of_mem _ (List.mem_flatMap.mpr ⟨c, hc, hmem⟩)

theorem addNode_removeNode_eq_detachAppend : ∀ (n : Node) (a b : String)
    (sub : Node), isNormal n → (ids n).Nodup →
    addNode (removeNode n a) b sub = detachAppend a b sub n := by
  intro n
  induction n using Node.inductionOn with
  | _ n IH =>
    intro a b sub hN hU
    rw [removeNode_def, addNode_def, detachAppend_def]
    simp only [Node.id_mk, Node.text_mk, Node.childrenD_mk_some]
    by_cases hb : n.id = b
    · rw [if_pos hb, if_pos hb]
      refine congrArg _ (congrArg _ (congrArg (· ++ [sub]) ?_))
      refine List.map_congr_left ?_
      intro c hc
      have hbc : b ∉ ids c := by
        intro hmem
        rw [ids_def] at hU
        refine (List.nodup_cons.mp hU).1 ?_
        refine List.mem_flatMap.mpr ⟨c, List.mem_of_mem_filter hc, ?_⟩
        rw [hb]
        exact hmem
      exact (detachAppend_eq_removeNode c hbc).symm
    · rw [if_neg hb, if_neg hb, List.append_nil, List.map_map]
      refine congrArg _ (congrArg _ (List.map_congr_left ?_))
      intro c hc
      have hcmem : c ∈ n.childrenD := List.mem_of_mem_filter hc
      show addNode (removeNode c a) b sub = detachAppend a b sub c
      by_cases hbc : b ∈ ids c
      · exact IH c hcmem a b sub (isNormal_of_mem hN hcmem)
          (nodup_ids_of_mem hU hcmem)
      · have h1 : addNode (removeNode c a) b sub = removeNode c a := by
          refine addNode_eq_self _ _ _ (removeNode_isNormal c a) ?_
          intro hmem
          exact hbc (ids_removeNode_subset c a hmem)
        rw [h1]
        exact (detachAppend_eq_removeNode c hbc).symm

-- Layout lemmas.

theorem layoutChildren_x_proj (cs : List Node) (level : ℕ)
    (IH : ∀ c ∈ cs, ∀ (lv : ℕ) (y : ℚ),
      (layoutAux c lv y).map (fun e => (e.1, e.2.1)) =
        (depthAux c lv).map
          (fun e => (e.1, (e.2 : ℚ) * (NODE_WIDTH + H_SPACING)))) :
    ∀ y : ℚ, (layoutChildren cs level y).map (fun e => (e.1, e.2.1)) =
      (cs.flatMap (depthAux · level)).map
        (fun e => (e.1, (e.2 : ℚ) * (NODE_WIDTH + H_SPACING))) := by
  induction cs with
  | nil => simp
  | cons c cs ih =>
    intro y
    rw [layoutChildren_cons, List.flatMap_cons, List.map_append,
      List.map_append, IH c (by simp),
      ih (fun c hc => IH c (List.mem_cons_of_mem _ hc))]

theorem layoutAux_x_proj : ∀ (n : Node) (level : ℕ) (y : ℚ),
    (layoutAux n level y).map (fun e => (e.1, e.2.1)) =
      (depthAux n level).map
        (fun e => (e.1, (e.2 : ℚ) * (NODE_WIDTH + H_SPACING))) := by
  intro n
  induction n using Node.inductionOn with
  | _ n IH =>
    intro level y
    rw [layoutAux_def, depthAux_def, List.map_cons, List.map_cons]
    rw [layoutChildren_x_proj _ _ (fun c hc => IH c hc)]

theorem computeLayout_head (T : Node) :
    (computeLayout T).head? = some (T.id, 0, 0) := by
  rw [computeLayout, layoutAux_def]
  norm_num

theorem layoutAux_three (n : Node) (level : ℕ) (p : ℚ) (c₁ c₂ c₃ : Node)
    (h : n.childrenD = [c₁, c₂, c₃]) :
    layoutAux n level p =
      (n.id, (level : ℚ) * (NODE_WIDTH + H_SPACING), p) ::
        (layoutAux c₁ (level + 1) (p - 90) ++
          (layoutAux c₂ (level + 1) p ++
            layoutAux c₃ (level + 1) (p + 90))) := by
  rw [layoutAux_def, h]
  rw [layoutChildren_cons, layoutChildren_cons, layoutChildren_cons,
    layoutChildren_nil, List.append_nil]
  have e₁ : p - totalChildHeight ([c₁, c₂, c₃] : List Node).length / 2 +
      NODE_HEIGHT / 2 = p - 90 := by
    norm_num [totalChildHeight, NODE_HEIGHT, V_SPACING]
    ring
  have e₂ : p - totalChildHeight ([c₁, c₂, c₃] : List Node).length / 2 +
      (NODE_HEIGHT + V_SPACING) + NODE_HEIGHT / 2 = p := by
    norm_num [totalChildHeight, NODE_HEIGHT, V_SPACING]
    ring
  have e₃ : p - totalChildHeight ([c₁, c₂, c₃] : List Node).length / 2 +
      (NODE_HEIGHT + V_SPACING) + (NODE_HEIGHT + V_SPACING) +
      NODE_HEIGHT / 2 = p + 90 := by
    norm_num [totalChildHeight, NODE_HEIGHT, V_SPACING]
    ring
  rw [e₁, e₂, e₃]

theorem layoutAux_leaf (n : Node) (level : ℕ) (y : ℚ)
    (h : n.childrenD = []) :
    layoutAux n level y = [(n.id, (level : ℚ) * (NODE_WIDTH + H_SPACING), y)] := by
  rw [layoutAux_def, h, layoutChildren_nil]

-- Renaming to the current text of a found node changes nothing.

theorem renameNode_same_text : ∀ (T : Node) {q : String} {m : Node},
    isNormal T → (ids T).Nodup → findNode T q = some m →
    renameNode T q m.text = T := by
  intro T
  induction T using Node.inductionOn with
  | _ T IH =>
    intro q m hN hU hfind
    rw [renameNode_def]
    by_cases h : T.id = q
    · rw [findNode_def, if_pos h] at hfind
      cases hfind
      rw [if_pos h, Node.eta]
    · rw [if_neg h]
      rw [findNode_def, if_neg h] at hfind
      rcases findNodeL_split hfind with ⟨l₁, c₁, l₂, hsplit, hnone, hfound⟩
      have hq₁ : q ∈ ids c₁ := findNode_mem_ids hfound
      have hUflat : (T.childrenD.flatMap ids).Nodup := by
        rw [ids_def] at hU
        exact List.Nodup.of_cons hU
      have hflat : T.childrenD.flatMap ids =
          l₁.flatMap ids ++ (ids c₁ ++ l₂.flatMap ids) := by
        rw [hsplit]
        simp [List.flatMap_append]
      have hmap : T.childrenD.map (renameNode · q m.text) = T.childrenD := by
        refine map_eq_self_of ?_
        intro c hc
        have hcmem := hc
        rw [hsplit, List.mem_append, List.mem_cons] at hcmem
        rcases hcmem with hc₁ | rfl | hc₂
        · exact renameNode_eq_self c q m.text (isNormal_of_mem hN hc)
            ((findNode_eq_none_iff c q).mp (hnone c hc₁))
        · exact IH c hc (isNormal_of_mem hN hc) (nodup_ids_of_mem hU hc) hfound
        · refine renameNode_eq_self c q m.text (isNormal_of_mem hN hc) ?_
          intro hmem
          rw [hflat] at hUflat
          rcases List.nodup_append.mp hUflat with ⟨_, hU2, _⟩
          rcases List.nodup_append.mp hU2 with ⟨_, _, hdisj⟩
          exact hdisj hq₁ (List.mem_flatMap.mpr ⟨c, hc₂, hmem⟩)
      rw [hmap, ← children_eq_some hN, Node.eta]

-- Viewport lemmas.

theorem zoomFactor_ne_zero : zoomFactor ≠ 0 := by
  norm_num [zoomFactor]

theorem aspectRatio_zoomAt (vb : ViewBox) (r : ScreenRect) (px py : ℚ)
    (zin : Bool) : aspectRatio (zoomAt vb r px py zin) = aspectRatio vb := by
  cases zin with
  | true =>
    show vb.width / zoomFactor / (vb.height / zoomFactor) = _
    rw [div_eq_mul_inv vb.width, div_eq_mul_inv vb.height]
    exact mul_div_mul_right _ _ (inv_ne_zero zoomFactor_ne_zero)
  | false =>
    show vb.width * zoomFactor / (vb.height * zoomFactor) = _
    exact mul_div_mul_right _ _ zoomFactor_ne_zero

theorem aspectRatio_panBy (vb : ViewBox) (dx dy cw : ℚ) :
    aspectRatio (panBy vb dx dy cw) = aspectRatio vb := rfl

theorem aspectRatio_applyViewOps : ∀ (ops : List ViewOp) (vb : ViewBox),
    aspectRatio (applyViewOps vb ops) = aspectRatio vb := by
  intro ops
  induction ops with
  | nil => intro vb; rfl
  | cons op ops ih =>
    intro vb
    show aspectRatio (applyViewOps (applyViewOp vb op) ops) = _
    rw [ih]
    cases op with
    | pan dx dy cw => exact aspectRatio_panBy vb dx dy cw
    | zoom r px py zin => exact aspectRatio_zoomAt vb r px py zin

-- Claim theorems.

/-- C1: the claim states that when the dragged id names a non-root node of
the tree and the target id names no node at all, reparentNode is a no-op
returning the unchanged tree, the subtree of the dragged node being neither
removed nor lost. Evaluating the source operation on the tree with root
root, child a (with grandchild c) and child b, dragging a onto the absent
id zz, shows the opposite: every guard passes, removeNode detaches the
subtree rooted at a, addNode finds no node zz to attach it to, and the
subtree is silently lost from the returned tree. -/
theorem c1_missing_target_loses_subtree :
    reparentNode exTree "a" "zz" =
      Node.mk "root" "R" (some [Node.mk "b" "B" (some [])]) ∧
    findNode exTree "a" =
      some (Node.mk "a" "A" (some [Node.mk "c" "C" Option.none])) ∧
    findNode (reparentNode exTree "a" "zz") "a" = none :=
  ⟨rfl, rfl, rfl⟩

/-- C2: if the target id is a descendant of the dragged id, or equals it,
or the dragged id is the id of the root of the tree, then reparentNode
returns the tree unchanged. Trees are taken with explicit children lists
and globally unique ids, as the data model requires. -/
theorem c2_guarded_reparent_unchanged (T : Node) (a b : String)
    (hN : isNormal T) (hU : (ids T).Nodup)
    (h : a = b ∨ a = T.id ∨
      ∃ sub, findNode T a = some sub ∧ isDescendant sub b = true) :
    reparentNode T a b = T := by
  unfold reparentNode
  by_cases hg : a = b ∨ a = "root"
  · rw [if_pos hg]
  · rw [if_neg hg]
    rcases h with rfl | hroot | ⟨sub, hfind, hdesc⟩
    · exact absurd (Or.inl rfl) hg
    · rw [hroot, findNode_self]
      show (if isDescendant T b = true then T
        else addNode (removeNode T T.id) b T) = T
      by_cases hdb : isDescendant T b = true
      · rw [if_pos hdb]
      · rw [if_neg hdb]
        have hdbf : isDescendant T b = false := by
          revert hdb
          cases isDescendant T b <;> simp
        have hbT : b ∉ ids T := (isDescendant_eq_false_iff T b).mp hdbf
        have hrm : removeNode T T.id = T := by
          refine removeNode_eq_self T T.id hN ?_
          rw [ids_def] at hU
          exact (List.nodup_cons.mp hU).1
        rw [hrm]
        exact addNode_eq_self T b T hN hbT
    · rw [hfind]
      show (if isDescendant sub b = true then T
        else addNode (removeNode T a) b sub) = T
      rw [if_pos hdesc]

/-- Witness for C2 at a concrete input: dropping node a onto its own child
c is refused and the tree r with subtree a (holding c) and sibling b comes
back unchanged. -/
theorem c2_witness : reparentNode exTree2 "a" "c" = exTree2 :=
  c2_guarded_reparent_unchanged exTree2 "a" "c" (by decide) (by decide)
    (Or.inr (Or.inr ⟨Node.mk "a" "A" (some [Node.mk "c" "C" (some [])]),
      rfl, rfl⟩))

/-- C3: when every reparent guard passes and the target is present, the
source computation, remove-then-add, equals the one-pass operation written
from the specification sentence: the subtree of the dragged node is
detached from its parent (the order of the remaining siblings is kept by
the filter), the very same subtree is appended at the end of the children
of the target node, and every other node keeps its id, text and other
children. Moreover finding the dragged id in the result returns the
original subtree unchanged. -/
theorem c3_reparent_detach_append (T : Node) (a b : String) (sub : Node)
    (hN : isNormal T) (hU : (ids T).Nodup)
    (hfind : findNode T a = some sub) (hdesc : isDescendant sub b = false)
    (hab : a ≠ b) (haroot : a ≠ "root") (hb : b ∈ ids T) :
    reparentNode T a b = detachAppend a b sub T ∧
    findNode (reparentNode T a b) a = some sub := by
  have hguard : ¬(a = b ∨ a = "root") := by
    rintro (h | h)
    · exact hab h
    · exact haroot h
  have hrepar : reparentNode T a b = addNode (removeNode T a) b sub := by
    unfold reparentNode
    rw [if_neg hguard, hfind]
    show (if isDescendant sub b = true then T
      else addNode (removeNode T a) b sub) = _
    rw [hdesc]
    simp
  have hTa : T.id ≠ a := by
    intro h
    rw [← h, findNode_self] at hfind
    cases hfind
    exact absurd hb ((isDescendant_eq_false_iff T b).mp hdesc)
  have hsub_a : sub.id = a := findNode_id hfind
  have hbsub : b ∉ ids sub := (isDescendant_eq_false_iff sub b).mp hdesc
  constructor
  · rw [hrepar]
    exact addNode_removeNode_eq_detachAppend T a b sub hN hU
  · rw [hrepar]
    have hnew := findNode_addNode_new (removeNode T a) b sub
      (removeNode_isNormal T a)
      (mem_ids_removeNode T hN hU hTa hfind hb hbsub)
      (by rw [hsub_a]; exact not_mem_ids_removeNode T a hTa)
    rw [hsub_a] at hnew
    exact hnew

/-- Witness for C3 at a concrete input: moving subtree a (holding c) onto
sibling b inside the tree r. -/
theorem c3_witness :
    reparentNode exTree2 "a" "b" =
      detachAppend "a" "b"
        (Node.mk "a" "A" (some [Node.mk "c" "C" (some [])])) exTree2 ∧
    findNode (reparentNode exTree2 "a" "b") "a" =
      some (Node.mk "a" "A" (some [Node.mk "c" "C" (some [])])) :=
  c3_reparent_detach_append exTree2 "a" "b"
    (Node.mk "a" "A" (some [Node.mk "c" "C" (some [])]))
    (by decide) (by decide) rfl rfl (by decide) (by decide) (by decide)

/-- C4 (counterexample): the claim states that at most one gesture is
active at a time and that starting a new drag first resolves an edit in
progress. From the idle state over the tree r, the sequence double-click a,
type zzz, mouse-down on node b, mouse-move reaches a state where the drag
is active (interaction tag drag, ghost shown for b) while the edit of a is
still active and unresolved (editing id still a, draft zzz uncommitted,
tree unchanged); a later background mouse-down then commits the stale
draft, so the edit was never resolved when the drag began. -/
theorem c4_counterexample :
    (run (initState exTree2) [UIEvent.nodeDoubleClick "a",
      UIEvent.textChange "zzz", UIEvent.nodeMouseDown "b",
      UIEvent.mouseMove]).itype = IType.drag ∧
    (run (initState exTree2) [UIEvent.nodeDoubleClick "a",
      UIEvent.textChange "zzz", UIEvent.nodeMouseDown "b",
      UIEvent.mouseMove]).ghostId = some "b" ∧
    (run (initState exTree2) [UIEvent.nodeDoubleClick "a",
      UIEvent.textChange "zzz", UIEvent.nodeMouseDown "b",
      UIEvent.mouseMove]).editingId = some "a" ∧
    (run (initState exTree2) [UIEvent.nodeDoubleClick "a",
      UIEvent.textChange "zzz", UIEvent.nodeMouseDown "b",
      UIEvent.mouseMove]).data = exTree2 ∧
    (run (initState exTree2) [UIEvent.nodeDoubleClick "a",
      UIEvent.textChange "zzz", UIEvent.nodeMouseDown "b",
      UIEvent.mouseMove, UIEvent.backgroundMouseDown]).data =
      Node.mk "r" "R" (some [Node.mk "a" "zzz"
        (some [Node.mk "c" "C" (some [])]), Node.mk "b" "B" (some [])]) :=
  ⟨rfl, rfl, rfl, rfl, rfl⟩

/-- C4 (amended): the pan, drag and edit phases of a pointer gesture are
held in one tagged interaction field, so that field holds at most one of
them; a double-click always cancels a drag in progress (interaction tag
becomes edit, ghost and captured drag node are cleared), and a background
mouse-down always resolves an edit in progress before panning (auto-save
commit, editing id cleared); but a mouse-down on a node starts a drag
without resolving an edit in progress: the editing state persists
alongside the drag until a blur or a background mouse-down resolves it. -/
theorem c4_gesture_resolution (s : UIState) (i : String) :
    ((step s (UIEvent.nodeDoubleClick i)).itype = IType.edit ∧
     (step s (UIEvent.nodeDoubleClick i)).ghostId = Option.none ∧
     (step s (UIEvent.nodeDoubleClick i)).dragId = Option.none) ∧
    ((step s UIEvent.backgroundMouseDown).itype = IType.pan ∧
     (step s UIEvent.backgroundMouseDown).editingId = Option.none ∧
     (step s UIEvent.backgroundMouseDown).data =
      commitEdit s.data s.editingId s.editedText) ∧
    ((step s (UIEvent.nodeMouseDown i)).itype = IType.drag ∧
     (step s (UIEvent.nodeMouseDown i)).editingId = s.editingId ∧
     (step s (UIEvent.nodeMouseDown i)).data = s.data) := by
  refine ⟨?_, ⟨rfl, rfl, rfl⟩, ⟨rfl, rfl, rfl⟩⟩
  cases hf : findNode s.data i <;> simp [step, hf]

/-- C5: zooming at a screen point keeps the logical point under that
screen point fixed: converting the pointer position with the new viewBox
yields the same logical point as converting it with the old one. In the
rational model the equality is exact. -/
theorem c5_zoom_anchor (vb : ViewBox) (r : ScreenRect) (px py : ℚ)
    (zin : Bool) :
    screenToLogical r (zoomAt vb r px py zin) px py =
      screenToLogical r vb px py := by
  cases zin <;>
    simp only [screenToLogical, zoomAt, Prod.mk.injEq] <;>
    exact ⟨by ring, by ring⟩

/-- C6: on blur the rename is committed exactly when the draft differs
from the node's current text; the Enter-without-shift save path applies
renameNode unconditionally, but renaming a found node to its own current
text is the identity on the tree, so the tree changes only when the text
actually changed; Escape discards the draft and leaves the tree alone.
The blur event also returns the machine to the non-editing state. -/
theorem c6_edit_commit (T : Node) (q draft : String) (n : Node)
    (hN : isNormal T) (hU : (ids T).Nodup)
    (hfind : findNode T q = some n) :
    (commitEdit T (some q) draft =
      if n.text = draft then T else renameNode T q draft) ∧
    (n.text = draft → renameNode T q draft = T) ∧
    applyEditAction T q draft (editKeyDown "Escape" false) =
      (T, Option.none) ∧
    applyEditAction T q draft (editKeyDown "Enter" false) =
      (renameNode T q draft, Option.none) ∧
    (∀ s : UIState, (step s UIEvent.textBlur).data =
      commitEdit s.data s.editingId s.editedText ∧
      (step s UIEvent.textBlur).editingId = Option.none) := by
  refine ⟨?_, ?_, rfl, rfl, fun s => ⟨rfl, rfl⟩⟩
  · show (match findNode T q with
      | some m => if m.text ≠ draft then renameNode T q draft else T
      | none => T) =
      if n.text = draft then T else renameNode T q draft
    rw [hfind]
    by_cases h : n.text = draft <;> simp [h]
  · intro h
    have hsame := renameNode_same_text T hN hU hfind
    rw [← h]
    exact hsame

/-- Witness for C6 at a concrete input: node a of the tree r edited with a
draft equal to its current text A. -/
theorem c6_witness :
    (commitEdit exTree2 (some "a") "A" =
      if (Node.mk "a" "A" (some [Node.mk "c" "C" (some [])])).text = "A"
      then exTree2 else renameNode exTree2 "a" "A") ∧
    ((Node.mk "a" "A" (some [Node.mk "c" "C" (some [])])).text = "A" →
      renameNode exTree2 "a" "A" = exTree2) ∧
    applyEditAction exTree2 "a" "A" (editKeyDown "Escape" false) =
      (exTree2, Option.none) ∧
    applyEditAction exTree2 "a" "A" (editKeyDown "Enter" false) =
      (renameNode exTree2 "a" "A", Option.none) ∧
    (∀ s : UIState, (step s UIEvent.textBlur).data =
      commitEdit s.data s.editingId s.editedText ∧
      (step s UIEvent.textBlur).editingId = Option.none) :=
  c6_edit_commit exTree2 "a" "A"
    (Node.mk "a" "A" (some [Node.mk "c" "C" (some [])]))
    (by decide) (by decide) rfl

/-- C7: the horizontal layout places every node at an x equal to its tree
depth times node width plus horizontal spacing (stated as an equality of
the projections of the layout list and the depth list), gives the root
y zero (and x zero), and for a parent with exactly three children lays the
middle child out at exactly the parent's y: the parent's entry carries the
handed-down y, and the middle child's entry carries that same y. -/
theorem c7_horizontal_layout :
    (∀ (n : Node) (level : ℕ) (y : ℚ),
      (layoutAux n level y).map (fun e => (e.1, e.2.1)) =
        (depthAux n level).map
          (fun e => (e.1, (e.2 : ℚ) * (NODE_WIDTH + H_SPACING)))) ∧
    (∀ T : Node, (computeLayout T).head? = some (T.id, 0, 0)) ∧
    (∀ (n : Node) (level : ℕ) (p : ℚ) (c₁ c₂ c₃ : Node),
      n.childrenD = [c₁, c₂, c₃] →
      layoutAux n level p =
        (n.id, (level : ℚ) * (NODE_WIDTH + H_SPACING), p) ::
          (layoutAux c₁ (level + 1) (p - 90) ++
            (layoutAux c₂ (level + 1) p ++
              layoutAux c₃ (level + 1) (p + 90))) ∧
      (layoutAux c₂ (level + 1) p).head? =
        some (c₂.id, ((level : ℚ) + 1) * (NODE_WIDTH + H_SPACING), p)) := by
  refine ⟨layoutAux_x_proj, computeLayout_head, ?_⟩
  intro n level p c₁ c₂ c₃ h
  refine ⟨layoutAux_three n level p c₁ c₂ c₃ h, ?_⟩
  rw [layoutAux_def]
  simp only [List.head?_cons, Option.some.injEq, Prod.mk.injEq]
  refine ⟨trivial, ?_, trivial⟩
  push_cast
  ring

/-- Witness for C7 at a concrete input: a parent with three leaf children
laid out from level zero and y zero. -/
theorem c7_witness :
    layoutAux exThree 0 0 =
      ("p", (0 : ℚ) * (NODE_WIDTH + H_SPACING), 0) ::
        (layoutAux (Node.mk "x1" "one" Option.none) (0 + 1) (0 - 90) ++
          (layoutAux (Node.mk "x2" "two" Option.none) (0 + 1) 0 ++
            layoutAux (Node.mk "x3" "three" Option.none) (0 + 1) (0 + 90))) ∧
    (layoutAux (Node.mk "x2" "two" Option.none) (0 + 1) 0).head? =
      some ("x2", ((0 : ℚ) + 1) * (NODE_WIDTH + H_SPACING), 0) :=
  c7_horizontal_layout.2.2 exThree 0 0
    (Node.mk "x1" "one" Option.none) (Node.mk "x2" "two" Option.none)
    (Node.mk "x3" "three" Option.none) rfl

/-- C8 (counterexample): the claim states that the sibling-group height
computed by the layout for an empty children list is zero and not
negative; the source formula count times node height plus vertical spacing
minus one vertical spacing evaluates at count zero to minus thirty, which
is negative. -/
theorem c8_counterexample :
    totalChildHeight 0 = -30 ∧ totalChildHeight 0 < 0 := by
  constructor <;> norm_num [totalChildHeight, NODE_HEIGHT, V_SPACING]

/-- C8 (amended): for a node with an empty children list the group height
formula yields minus thirty rather than zero, but the negative value is
harmless: such a node contributes exactly its own position and nothing
else, so the positions of all other nodes are unaffected. -/
theorem c8_empty_children_group (n : Node) (level : ℕ) (y : ℚ)
    (h : n.childrenD = []) :
    totalChildHeight n.childrenD.length = -30 ∧
    layoutAux n level y =
      [(n.id, (level : ℚ) * (NODE_WIDTH + H_SPACING), y)] := by
  refine ⟨?_, layoutAux_leaf n level y h⟩
  rw [h]
  norm_num [totalChildHeight, NODE_HEIGHT, V_SPACING]

/-- Witness for C8 at a concrete input: a leaf node with an absent
children property. -/
theorem c8_witness :
    totalChildHeight (Node.mk "x" "t" Option.none).childrenD.length = -30 ∧
    layoutAux (Node.mk "x" "t" Option.none) 3 5 =
      [("x", (3 : ℚ) * (NODE_WIDTH + H_SPACING), 5)] :=
  c8_empty_children_group (Node.mk "x" "t" Option.none) 3 5 rfl

/-- C9: every tree operation treats a node with an absent children
property exactly like one with an explicit empty children list: replacing
every absent list by an empty one (normalize) commutes with findNode,
isDescendant, computeLayout, renameNode and reparentNode. All operations
are total Lean functions, so none of them can fail on such a tree. -/
theorem c9_missing_children_as_empty :
    (∀ (n : Node) (q : String),
      findNode (normalize n) q = (findNode n q).map normalize) ∧
    (∀ (n : Node) (q : String),
      isDescendant (normalize n) q = isDescendant n q) ∧
    (∀ n : Node, computeLayout (normalize n) = computeLayout n) ∧
    (∀ (n : Node) (q s : String),
      renameNode (normalize n) q s = normalize (renameNode n q s)) ∧
    (∀ (T : Node) (a b : String),
      reparentNode (normalize T) a b = normalize (reparentNode T a b)) :=
  ⟨findNode_normalize, isDescendant_normalize,
    fun n => layoutAux_normalize n 0 0, renameNode_normalize,
    reparentNode_normalize⟩

/-- C10: panning changes only the x and y of the viewBox and leaves width
and height unchanged; a wheel zoom divides or multiplies width and height
by the same fixed factor eleven tenths; hence the width over height ratio
of the viewBox is invariant under every sequence of pans and zooms. -/
theorem c10_aspect_ratio_invariant :
    (∀ (vb : ViewBox) (dx dy cw : ℚ),
      (panBy vb dx dy cw).width = vb.width ∧
      (panBy vb dx dy cw).height = vb.height) ∧
    (∀ (vb : ViewBox) (r : ScreenRect) (px py : ℚ) (zin : Bool),
      (zoomAt vb r px py zin).width =
        (if zin then vb.width / zoomFactor else vb.width * zoomFactor) ∧
      (zoomAt vb r px py zin).height =
        (if zin then vb.height / zoomFactor else vb.height * zoomFactor)) ∧
    (∀ (vb : ViewBox) (ops : List ViewOp),
      aspectRatio (applyViewOps vb ops) = aspectRatio vb) :=
  ⟨fun _ _ _ _ => ⟨rfl, rfl⟩, fun _ _ _ _ _ => ⟨rfl, rfl⟩,
    fun vb ops => aspectRatio_applyViewOps ops vb⟩

end MindMap
